import Mathlib

/-!
Shallow embedding of `parexec` (main.go): a program that reads a yaml
configuration describing groups of shell commands, builds one job per group
(each job a list of command closures), and executes the jobs on a pool of
worker goroutines fed by a single unbuffered channel.

Sources embedded here, in order of appearance in main.go:
`cli`, `execfunc` (via `buildFunc`), `readYaml`, `functionMeta` /
`execdataMeta` / `functionsMeta` (the yaml-decoded shapes), `execData`,
`executor` (the worker loop body, modelled per job as `runJob`),
`processConfig`, `buildFunc`, and `main` (the pool phase modelled as the
labelled transition system `Step` on `PoolState`).

External collaborators are modelled explicitly:
- the filesystem read (`ioutil.ReadFile`) as a map from path to
  read-result (`FileSystem`);
- `yaml.Unmarshal` of gopkg.in/yaml.v2 as `unmarshal` over a document AST
  (`YamlDoc`): a document either fails to decode (invalid yaml or a shape
  mismatch) or is a list of groups of descriptor mappings whose fields may
  each be absent; per yaml.v2 semantics an absent field leaves the Go
  struct field at its zero value ("" for strings, nil for slices) and is
  not an error;
- `exec.Command(...).Run()` as an oracle `RunOracle` giving, per command,
  either a spawn/exit error description or the captured standard output.
-/

namespace Parexec

/-- `cli` struct from main.go: the program name and its argument list. -/
structure cli where
  command : String
  args : List String
  deriving DecidableEq, Repr

/-- One console print of the process, in order of emission:
the `executing %v` trace from `buildFunc`, the captured-stdout print
`fmt.Println(out.String())`, or the worker loop's `fmt.Println(err)`. -/
inductive Event
  | trace (cmd : String)
  | output (s : String)
  | errReport (e : String)
  deriving DecidableEq, Repr

/-- The process-execution collaborator: running `exec.Command(command,
args...)` with stdout captured either fails (spawn failure or non-zero
exit, with an error description) or succeeds with the captured buffer. -/
def RunOracle : Type := cli → Except String String

/-- What one invocation of an `execfunc` closure does: the console events it
prints, in order, and the error value it returns. -/
structure InvokeResult where
  events : List Event
  err : Option String
  deriving DecidableEq, Repr

/-- An `execfunc` as produced by `buildFunc` in main.go: the closure is
fully determined by the `cli` value it captures. -/
structure execfunc where
  clargs : cli
  deriving DecidableEq, Repr

/-- `buildFunc` from main.go: builds a new execfunc closing over the given
configuration parameters. Building itself is pure; the closure body is
`execfunc.invoke`. -/
def buildFunc (clargs : cli) : execfunc := ⟨clargs⟩

/-- The body of the closure built by `buildFunc`, run under a `RunOracle`:
print the `executing %v` trace, run the command with stdout captured;
on error return the error (no output printed); on success print the
captured buffer and return nil. -/
def execfunc.invoke (f : execfunc) (run : RunOracle) : InvokeResult :=
  match run f.clargs with
  | .error e => ⟨[Event.trace f.clargs.command], some e⟩
  | .ok out => ⟨[Event.trace f.clargs.command, Event.output out], none⟩

/-- `execData` from main.go: the ordered functions of one job. -/
structure execData where
  fs : List execfunc
  deriving DecidableEq, Repr

/-- `newexecData` from main.go: an empty execData. -/
def newexecData : execData := ⟨[]⟩

/-- `execData.add` from main.go: append one function (Go `append`). -/
def execData.add (e : execData) (f : execfunc) : execData := ⟨e.fs ++ [f]⟩

/-- The inner loop of `executor` in main.go over one received `execData`:
for each `f` in `edata.fs` in order, call it; if it returns an error, print
the error (`fmt.Println(err)`) and continue with the next function — there
is no break or early return. Returns the console events printed, paired
with the log of closures invoked, in invocation order. -/
def runJob (run : RunOracle) : List execfunc → List Event × List execfunc
  | [] => ([], [])
  | f :: rest =>
    let r := f.invoke run
    let printed :=
      match r.err with
      | some e => r.events ++ [Event.errReport e]
      | none => r.events
    let tail := runJob run rest
    (printed ++ tail.1, f :: tail.2)

/-- The events one invocation contributes to the worker's console output:
what the closure prints, followed by the worker's error report when the
closure returned an error. -/
def reported (run : RunOracle) (f : execfunc) : List Event :=
  match (f.invoke run).err with
  | some e => (f.invoke run).events ++ [Event.errReport e]
  | none => (f.invoke run).events

/-! ## Configuration decoding -/

/-- `functionMeta` from main.go, as filled in by yaml decoding. -/
structure functionMeta where
  Name : String
  Cmd : String
  Args : List String
  deriving DecidableEq, Repr

/-- `execdataMeta` from main.go: one parallel group. -/
structure execdataMeta where
  Funcs : List functionMeta
  deriving DecidableEq, Repr

/-- `functionsMeta` from main.go: the decoded top-level shape. -/
structure functionsMeta where
  Ex : List execdataMeta
  deriving DecidableEq, Repr

/-- One command-descriptor mapping of the yaml document. Each field may be
absent; gopkg.in/yaml.v2 leaves an absent field at the Go zero value. -/
structure DescriptorDoc where
  name : Option String
  cmd : Option String
  args : Option (List String)
  deriving DecidableEq, Repr

/-- One `- execdata:` group of the yaml document. -/
structure GroupDoc where
  execdata : List DescriptorDoc
  deriving DecidableEq, Repr

/-- A configuration document: either text that yaml.v2 rejects (invalid
yaml or a shape mismatch with `functionsMeta`), or a well-shaped document
listing the groups under the `functions` key ( `[]` both for an empty list
and for an absent key, which decode alike to a nil slice). -/
inductive YamlDoc
  | malformed (e : String)
  | wellFormed (functions : List GroupDoc)
  deriving DecidableEq, Repr

/-- yaml.v2 decoding of one descriptor into `functionMeta`: absent fields
become the zero value; a missing `cmd` is NOT a decode error. -/
def decodeDescriptor (d : DescriptorDoc) : functionMeta :=
  ⟨d.name.getD "", d.cmd.getD "", d.args.getD []⟩

/-- `yaml.Unmarshal(c, &f)` with `f : functionsMeta`, on a parsed document. -/
def unmarshal : YamlDoc → Except String functionsMeta
  | .malformed e => .error e
  | .wellFormed gs => .ok ⟨gs.map (fun g => ⟨g.execdata.map decodeDescriptor⟩)⟩

/-- The filesystem collaborator: `ioutil.ReadFile` on a path either fails
with a read error or yields the file contents, here already viewed through
the yaml parser as a `YamlDoc`. -/
def FileSystem : Type := String → Except String YamlDoc

/-- `readYaml` from main.go: read the file at `path`, propagating a read
error to the caller. -/
def readYaml (path : String) (fs : FileSystem) : Except String YamlDoc :=
  fs path

/-- Result of `processConfig`: on a read error main.go calls `log.Fatal`
(process exits immediately), on a decode error `log.Fatalf`; otherwise it
returns the constructed job list. -/
inductive ConfigResult
  | fatalRead (e : String)
  | fatalDecode (e : String)
  | ok (graph : List execData)
  deriving DecidableEq, Repr

/-- The graph-construction loop of `processConfig` (main.go lines 119-128),
on an already-decoded `functionsMeta`: for each group `r` in order, start
from `newexecData` and `add` one `buildFunc` closure per descriptor in
order; append the finished job to the result slice. -/
def buildGraph (f : functionsMeta) : List execData :=
  f.Ex.foldl
    (fun dataExec r =>
      dataExec ++ [r.Funcs.foldl (fun eData f => eData.add (buildFunc ⟨f.Cmd, f.Args⟩)) newexecData])
    []

/-- The decode-then-build tail of `processConfig`, on the document that was
read: a decode failure is `log.Fatalf`, otherwise the job graph is built
from the decoded groups. -/
def graphOfDoc (doc : YamlDoc) : ConfigResult :=
  match unmarshal doc with
  | .error e => .fatalDecode e
  | .ok f => .ok (buildGraph f)

/-- `processConfig` from main.go: note it reads the hardcoded path
"config.yaml" through `readYaml`, ignoring its `config` parameter; a read
failure is `log.Fatal`, then the document is decoded and the graph built
(`graphOfDoc`). -/
def processConfig (config : String) (fs : FileSystem) : ConfigResult :=
  match readYaml "config.yaml" fs with
  | .error e => .fatalRead e
  | .ok doc => graphOfDoc doc

/-- A descriptor with its display name removed (the `name` field is
metadata; this is the erasure used to compare two configurations that
differ only in display names). -/
def stripDescriptor (d : DescriptorDoc) : DescriptorDoc :=
  ⟨none, d.cmd, d.args⟩

/-- A document with every descriptor's display name removed. -/
def stripNames : YamlDoc → YamlDoc
  | .malformed e => .malformed e
  | .wellFormed gs => .wellFormed (gs.map (fun g => ⟨g.execdata.map stripDescriptor⟩))

/-- Outcome of `main` up to the point the worker pool would start:
`log.Fatal` inside `processConfig` exits the process on the spot
(`fatal`), so the WaitGroup, the worker goroutines and the channel of
main.go lines 151-163 only ever come into being in the `run` case, whose
pool phase starts at `initState workers graph`. -/
inductive MainResult
  | fatal (e : String)
  | run (workers : Nat) (graph : List execData)
  deriving DecidableEq, Repr

/-- `main` from main.go up to the pool phase: build the graph via
`processConfig` (its `log.Fatal` / `log.Fatalf` abort the process before
any worker exists), then enter the pool phase with `numCPU =
runtime.NumCPU()` workers. -/
def mainStart (numCPU : Nat) (fs : FileSystem) : MainResult :=
  match processConfig "config.yaml" fs with
  | .fatalRead e => .fatal e
  | .fatalDecode e => .fatal e
  | .ok graph => .run numCPU graph

/-! ## The pool phase of `main`

`main` (main.go lines 149-164) after `processConfig` returns a graph:
it creates a WaitGroup of size `workers = runtime.NumCPU()`, spawns that
many `executor` goroutines over one unbuffered channel, sends each job of
the graph on the channel in order, closes the channel, and waits on the
WaitGroup before returning.

We model this as a labelled transition system. Its state records the jobs
main has not yet handed off (main sends them strictly in slice order, so
`pending` is always the not-yet-sent suffix), whether `close(edCh)` has
executed, each worker goroutine's state, and whether `wg.Wait()` has
returned. Faithfulness notes on the guards, each traced to the source:
- the channel is unbuffered, so a send completes exactly when some worker
  receives; `handoff` pairs both, and requires the receiving worker to be
  between iterations of its `for range` loop (`current = none`, not yet
  past the loop);
- `close` has guard `pending = []` because in main the `close(edCh)`
  statement comes after the send loop, and each (blocking, unbuffered)
  send has completed — been received — before the next statement runs;
- a worker's `for edata := range edataCh` loop ends, and `wg.Done()` runs,
  only once the channel is closed (`wdone` guard), and a worker past its
  loop never receives again (`done = false` guard on `handoff`);
- `wg.Wait()` returns (`exitStep`) only when all `workers` many `wg.Done()`
  calls happened; main executes it after `close`. -/

/-- The state of one `executor` goroutine: the jobs it has fully executed
(oldest first), the job currently being executed inside its loop body if
any, and whether it has called `wg.Done()`. -/
structure Worker where
  finished : List execData
  current : Option execData
  done : Bool
  deriving DecidableEq, Repr

/-- Global state of the pool phase. -/
structure PoolState where
  pending : List execData
  closed : Bool
  workers : List Worker
  exited : Bool
  deriving DecidableEq, Repr

/-- State right after main spawned the pool: nothing sent yet, channel
open, `n = runtime.NumCPU()` fresh workers, `wg.Wait()` not yet passed. -/
def initState (n : Nat) (graph : List execData) : PoolState :=
  ⟨graph, false, List.replicate n ⟨[], none, false⟩, false⟩

/-- One interleaving step of the pool phase (see the section comment for
the source of each guard). Workers are addressed by splitting the worker
list as `pre ++ w :: post`. -/
inductive Step : PoolState → PoolState → Prop
  | handoff (j : execData) (rest : List execData) (pre post : List Worker)
      (w : Worker) (ex : Bool)
      (hcur : w.current = none) (hd : w.done = false) :
      Step ⟨j :: rest, false, pre ++ w :: post, ex⟩
        ⟨rest, false, pre ++ { w with current := some j } :: post, ex⟩
  | finish (pend : List execData) (cl : Bool) (pre post : List Worker)
      (w : Worker) (j : execData) (ex : Bool)
      (hcur : w.current = some j) :
      Step ⟨pend, cl, pre ++ w :: post, ex⟩
        ⟨pend, cl,
          pre ++ { w with finished := w.finished ++ [j], current := none } :: post, ex⟩
  | close (ws : List Worker) (ex : Bool) :
      Step ⟨[], false, ws, ex⟩ ⟨[], true, ws, ex⟩
  | wdone (pend : List execData) (pre post : List Worker) (w : Worker) (ex : Bool)
      (hcur : w.current = none) (hd : w.done = false) :
      Step ⟨pend, true, pre ++ w :: post, ex⟩
        ⟨pend, true, pre ++ { w with done := true } :: post, ex⟩
  | exitStep (pend : List execData) (ws : List Worker)
      (hall : ∀ w ∈ ws, w.done = true) :
      Step ⟨pend, true, ws, false⟩ ⟨pend, true, ws, true⟩

/-- Reachability in zero or more interleaving steps. -/
def Reaches (s t : PoolState) : Prop := Relation.ReflTransGen Step s t

/-- The jobs a single worker holds: the fully executed ones and the one in
progress, if any. -/
def workerLoad (w : Worker) : List execData := w.finished ++ w.current.toList

/-- The jobs already handed off to a list of workers. -/
def loadOf (ws : List Worker) : List execData := (ws.map workerLoad).flatten

/-- The jobs already handed off to workers in a pool state. -/
def PoolState.assigned (s : PoolState) : List execData := loadOf s.workers

/-- The jobs fully executed so far, across all workers. -/
def PoolState.executed (s : PoolState) : List execData :=
  (s.workers.map Worker.finished).flatten

theorem loadOf_mid (pre post : List Worker) (w : Worker) :
    (loadOf (pre ++ w :: post) : Multiset execData)
      = (loadOf pre : Multiset execData) + (workerLoad w : Multiset execData)
          + (loadOf post : Multiset execData) := by
  simp only [loadOf, List.map_append, List.map_cons, List.flatten_append, List.flatten_cons]
  simp only [← Multiset.coe_add]
  abel

theorem loadOf_cons (w : Worker) (ws : List Worker) :
    loadOf (w :: ws) = workerLoad w ++ loadOf ws := by
  simp [loadOf]

theorem loadOf_replicate_idle (n : Nat) :
    loadOf (List.replicate n ⟨[], none, false⟩) = [] := by
  induction n with
  | zero => rfl
  | succ n ih => rw [List.replicate_succ, loadOf_cons, ih]; rfl

/-- Inductive invariant of the pool phase, relative to the initial worker
count `n` and job graph `graph`. -/
structure Inv (n : Nat) (graph : List execData) (s : PoolState) : Prop where
  handed : (s.assigned : Multiset execData) + (s.pending : Multiset execData) = (graph : Multiset execData)
  closedEmpty : s.closed = true → s.pending = []
  doneIdle : ∀ w ∈ s.workers, w.done = true → w.current = none
  doneClosed : ∀ w ∈ s.workers, w.done = true → s.closed = true
  sentInOrder : s.pending.IsSuffix graph
  wcount : s.workers.length = n
  exitedAll : s.exited = true → s.closed = true ∧ ∀ w ∈ s.workers, w.done = true

theorem inv_init (n : Nat) (graph : List execData) : Inv n graph (initState n graph) := by
  refine ⟨?_, ?_, ?_, ?_, ?_, ?_, ?_⟩
  · simp [initState, PoolState.assigned, loadOf_replicate_idle]
  · intro h; cases h
  · intro w hw _
    rw [List.eq_of_mem_replicate hw]
  · intro w hw hdw
    rw [List.eq_of_mem_replicate hw] at hdw
    cases hdw
  · exact List.suffix_refl graph
  · simp [initState]
  · intro h; cases h

theorem mem_mid {w' x : Worker} {pre post : List Worker}
    (h : w' ∈ pre ++ x :: post) : w' ∈ pre ∨ w' = x ∨ w' ∈ post := by
  rcases List.mem_append.1 h with h | h
  · exact Or.inl h
  · exact Or.inr (List.mem_cons.1 h)

theorem mem_mid_left {w' : Worker} {x : Worker} {pre post : List Worker}
    (h : w' ∈ pre) : w' ∈ pre ++ x :: post :=
  List.mem_append.2 (Or.inl h)

theorem mem_mid_self (x : Worker) (pre post : List Worker) :
    x ∈ pre ++ x :: post :=
  List.mem_append.2 (Or.inr (List.mem_cons_self x post))

theorem mem_mid_right {w' : Worker} {x : Worker} {pre post : List Worker}
    (h : w' ∈ post) : w' ∈ pre ++ x :: post :=
  List.mem_append.2 (Or.inr (List.mem_cons_of_mem x h))

theorem inv_step {n : Nat} {graph : List execData} {s t : PoolState}
    (hst : Step s t) (hs : Inv n graph s) : Inv n graph t := by
  obtain ⟨handed, closedEmpty, doneIdle, doneClosed, sentInOrder, wcount, exitedAll⟩ := hs
  cases hst with
  | handoff j rest pre post w ex hcur hd =>
    refine ⟨?_, by simp, ?_, ?_, ?_, by simpa using wcount, ?_⟩
    · simp only [PoolState.assigned, loadOf_mid] at handed ⊢
      rw [← List.singleton_append] at handed
      rw [← handed]
      simp only [workerLoad, hcur, Option.toList_none, Option.toList_some,
        List.append_nil, ← Multiset.coe_add]
      abel
    · intro w' hw' hdw'
      rcases mem_mid hw' with h | h | h
      · exact doneIdle w' (mem_mid_left h) hdw'
      · subst h; rw [hdw'] at hd; cases hd
      · exact doneIdle w' (mem_mid_right h) hdw'
    · intro w' hw' hdw'
      rcases mem_mid hw' with h | h | h
      · exact doneClosed w' (mem_mid_left h) hdw'
      · subst h; rw [hdw'] at hd; cases hd
      · exact doneClosed w' (mem_mid_right h) hdw'
    · exact List.IsSuffix.trans ⟨[j], rfl⟩ sentInOrder
    · intro hex
      have := (exitedAll hex).1
      cases this
  | finish pend cl pre post w j ex hcur =>
    refine ⟨?_, closedEmpty, ?_, ?_, sentInOrder, by simpa using wcount, ?_⟩
    · simp only [PoolState.assigned, loadOf_mid] at handed ⊢
      rw [← handed]
      simp only [workerLoad, hcur, Option.toList_none, Option.toList_some,
        List.append_nil, ← Multiset.coe_add]
    · intro w' hw' hdw'
      rcases mem_mid hw' with h | h | h
      · exact doneIdle w' (mem_mid_left h) hdw'
      · subst h; rfl
      · exact doneIdle w' (mem_mid_right h) hdw'
    · intro w' hw' hdw'
      rcases mem_mid hw' with h | h | h
      · exact doneClosed w' (mem_mid_left h) hdw'
      · subst h; exact doneClosed w (mem_mid_self w pre post) hdw'
      · exact doneClosed w' (mem_mid_right h) hdw'
    · intro hex
      obtain ⟨hcl, hall⟩ := exitedAll hex
      refine ⟨hcl, ?_⟩
      intro w' hw'
      rcases mem_mid hw' with h | h | h
      · exact hall w' (mem_mid_left h)
      · subst h; exact hall w (mem_mid_self w pre post)
      · exact hall w' (mem_mid_right h)
  | close ws ex =>
    exact ⟨handed, fun _ => rfl, doneIdle, fun _ _ _ => rfl,
      sentInOrder, wcount, fun hex => ⟨rfl, (exitedAll hex).2⟩⟩
  | wdone pend pre post w ex hcur hd =>
    refine ⟨?_, closedEmpty, ?_, fun _ _ _ => rfl, sentInOrder, by simpa using wcount, ?_⟩
    · simp only [PoolState.assigned, loadOf_mid] at handed ⊢
      exact handed
    · intro w' hw' hdw'
      rcases mem_mid hw' with h | h | h
      · exact doneIdle w' (mem_mid_left h) hdw'
      · subst h; exact hcur
      · exact doneIdle w' (mem_mid_right h) hdw'
    · intro hex
      obtain ⟨hcl, hall⟩ := exitedAll hex
      refine ⟨rfl, ?_⟩
      intro w' hw'
      rcases mem_mid hw' with h | h | h
      · exact hall w' (mem_mid_left h)
      · subst h; rfl
      · exact hall w' (mem_mid_right h)
  | exitStep pend ws hall =>
    exact ⟨handed, closedEmpty, doneIdle, doneClosed, sentInOrder, wcount,
      fun _ => ⟨rfl, hall⟩⟩

theorem foldl_append_eq_map {α β : Type} (g : α → β) (l : List α) :
    ∀ acc : List β, l.foldl (fun a r => a ++ [g r]) acc = acc ++ l.map g := by
  induction l with
  | nil => intro acc; simp
  | cons x xs ih => intro acc; simp [ih]

theorem foldl_add_eq_map (ms : List functionMeta) :
    ∀ acc : execData,
      ms.foldl (fun eData f => eData.add (buildFunc ⟨f.Cmd, f.Args⟩)) acc
        = ⟨acc.fs ++ ms.map (fun m => buildFunc ⟨m.Cmd, m.Args⟩)⟩ := by
  induction ms with
  | nil => intro acc; simp
  | cons m ms ih =>
    intro acc
    rw [List.foldl_cons, ih]
    simp [execData.add]

/-- The graph-construction loop in closed form: one job per group in group
order, one closure per descriptor in descriptor order. -/
theorem buildGraph_eq (f : functionsMeta) :
    buildGraph f
      = f.Ex.map (fun r => ⟨r.Funcs.map (fun m => buildFunc ⟨m.Cmd, m.Args⟩)⟩) := by
  unfold buildGraph
  rw [show (fun (dataExec : List execData) (r : execdataMeta) =>
      dataExec ++ [r.Funcs.foldl (fun eData f => eData.add (buildFunc ⟨f.Cmd, f.Args⟩)) newexecData])
    = (fun dataExec r =>
      dataExec ++ [⟨r.Funcs.map (fun m => buildFunc ⟨m.Cmd, m.Args⟩)⟩]) from ?_]
  · rw [foldl_append_eq_map]; rfl
  · funext dataExec r
    rw [foldl_add_eq_map]
    rfl

theorem inv_reaches {n : Nat} {graph : List execData} {s : PoolState}
    (h : Reaches (initState n graph) s) : Inv n graph s := by
  induction h with
  | refl => exact inv_init n graph
  | tail _ hstep ih => exact inv_step hstep ih

/-- Graph construction is blind to display names: erasing every `name`
field of the document leaves the construction result unchanged, because
`buildFunc` is fed only `f.Cmd` and `f.Args`. -/
theorem graphOfDoc_strip (d : YamlDoc) : graphOfDoc (stripNames d) = graphOfDoc d := by
  cases d with
  | malformed e => rfl
  | wellFormed gs =>
    simp [graphOfDoc, stripNames, unmarshal, buildGraph_eq, List.map_map,
      Function.comp_def, decodeDescriptor, stripDescriptor]

theorem loadOf_eq_nil {ws : List Worker} (h : loadOf ws = []) :
    ∀ w ∈ ws, w.finished = [] ∧ w.current = none := by
  induction ws with
  | nil => intro w hw; cases hw
  | cons x xs ih =>
    rw [loadOf_cons, List.append_eq_nil] at h
    intro w hw
    rcases List.mem_cons.1 hw with h' | h'
    · subst h'
      have hx := h.1
      rw [workerLoad, List.append_eq_nil] at hx
      refine ⟨hx.1, ?_⟩
      cases hw' : w.current with
      | none => rfl
      | some j => rw [hw'] at hx; cases hx.2
    · exact ih h.2 w h'

theorem flatten_finished_nil {ws : List Worker}
    (h : ∀ w ∈ ws, w.finished = []) : (ws.map Worker.finished).flatten = [] := by
  induction ws with
  | nil => rfl
  | cons x xs ih =>
    simp only [List.map_cons, List.flatten_cons, h x (List.mem_cons_self x xs)]
    exact ih (fun w hw => h w (List.mem_cons_of_mem x hw))

/-- A complete run of a one-worker pool over a one-job graph: hand the job
off, execute it, close the channel, let the worker signal done, exit. -/
theorem reaches_run_one (j : execData) :
    Reaches (initState 1 [j]) ⟨[], true, [⟨[j], none, true⟩], true⟩ := by
  have h1 : Step (initState 1 [j]) ⟨[], false, [⟨[], some j, false⟩], false⟩ :=
    Step.handoff j [] [] [] ⟨[], none, false⟩ false rfl rfl
  have h2 : Step ⟨[], false, [⟨[], some j, false⟩], false⟩
      ⟨[], false, [⟨[j], none, false⟩], false⟩ :=
    Step.finish [] false [] [] ⟨[], some j, false⟩ j false rfl
  have h3 : Step ⟨[], false, [⟨[j], none, false⟩], false⟩
      ⟨[], true, [⟨[j], none, false⟩], false⟩ :=
    Step.close [⟨[j], none, false⟩] false
  have h4 : Step ⟨[], true, [⟨[j], none, false⟩], false⟩
      ⟨[], true, [⟨[j], none, true⟩], false⟩ :=
    Step.wdone [] [] [] ⟨[j], none, false⟩ false rfl rfl
  have h5 : Step ⟨[], true, [⟨[j], none, true⟩], false⟩
      ⟨[], true, [⟨[j], none, true⟩], true⟩ := by
    refine Step.exitStep [] [⟨[j], none, true⟩] ?_
    intro w hw
    rcases List.mem_cons.1 hw with h' | h'
    · subst h'; rfl
    · cases h'
  exact Relation.ReflTransGen.head h1 (Relation.ReflTransGen.head h2
    (Relation.ReflTransGen.head h3 (Relation.ReflTransGen.head h4
      (Relation.ReflTransGen.single h5))))

theorem reaches_all_done (m : Nat) :
    ∀ k : Nat,
      Reaches
        ⟨[], true, List.replicate k ⟨[], none, true⟩ ++ List.replicate m ⟨[], none, false⟩, false⟩
        ⟨[], true, List.replicate (k + m) ⟨[], none, true⟩, false⟩ := by
  induction m with
  | zero =>
    intro k
    rw [List.replicate_zero, List.append_nil, Nat.add_zero]
    exact Relation.ReflTransGen.refl
  | succ m ih =>
    intro k
    have hstep : Step
        ⟨[], true, List.replicate k ⟨[], none, true⟩ ++
          ⟨[], none, false⟩ :: List.replicate m ⟨[], none, false⟩, false⟩
        ⟨[], true, List.replicate k ⟨[], none, true⟩ ++
          ⟨[], none, true⟩ :: List.replicate m ⟨[], none, false⟩, false⟩ :=
      Step.wdone [] (List.replicate k ⟨[], none, true⟩)
        (List.replicate m ⟨[], none, false⟩) ⟨[], none, false⟩ false rfl rfl
    rw [List.replicate_succ]
    refine Relation.ReflTransGen.head hstep ?_
    have hrw : List.replicate k (⟨[], none, true⟩ : Worker) ++
        ⟨[], none, true⟩ :: List.replicate m ⟨[], none, false⟩
        = List.replicate (k + 1) ⟨[], none, true⟩ ++ List.replicate m ⟨[], none, false⟩ := by
      rw [List.replicate_succ' k, List.append_assoc, List.singleton_append]
    rw [hrw]
    have hk := ih (k + 1)
    rw [show k + 1 + m = k + (m + 1) by omega] at hk
    exact hk

/-- With an empty graph, a pool of any size runs to normal termination:
the channel closes at once, every worker signals done, and main exits. -/
theorem reaches_exit_empty (n : Nat) :
    Reaches (initState n [])
      ⟨[], true, List.replicate n ⟨[], none, true⟩, true⟩ := by
  have h1 : Step (initState n []) ⟨[], true, List.replicate n ⟨[], none, false⟩, false⟩ :=
    Step.close (List.replicate n ⟨[], none, false⟩) false
  have h2 := reaches_all_done n 0
  rw [List.replicate_zero, List.nil_append, Nat.zero_add] at h2
  have h3 : Step ⟨[], true, List.replicate n ⟨[], none, true⟩, false⟩
      ⟨[], true, List.replicate n ⟨[], none, true⟩, true⟩ := by
    refine Step.exitStep [] (List.replicate n ⟨[], none, true⟩) ?_
    intro w hw
    rw [List.eq_of_mem_replicate hw]
  exact Relation.ReflTransGen.head h1 (Relation.ReflTransGen.trans h2
    (Relation.ReflTransGen.single h3))

theorem loadOf_all_idle {ws : List Worker} (h : ∀ w ∈ ws, w.current = none) :
    loadOf ws = (ws.map Worker.finished).flatten := by
  induction ws with
  | nil => rfl
  | cons x xs ih =>
    rw [loadOf_cons, List.map_cons, List.flatten_cons, workerLoad,
      h x (List.mem_cons_self x xs), Option.toList_none, List.append_nil,
      ih (fun w hw => h w (List.mem_cons_of_mem x hw))]

/-! ## The claims -/

/-- C1: in the worker loop of `executor`, a job's functions are invoked in
the exact declared order, each exactly once — the invocation log of the
loop over `edata.fs` is precisely `fs` itself, whatever each invocation
returns — and an invocation that returns an error never aborts the rest:
the loop prints the closure's own events followed by the error report
(`fmt.Println(err)`) and proceeds with the next function, so the printed
trace is the concatenation of `reported` over all of `fs`. -/
theorem runJob_invokes_in_order (run : RunOracle) (fs : List execfunc) :
    (runJob run fs).2 = fs ∧
      (runJob run fs).1 = (fs.map (reported run)).flatten := by
  induction fs with
  | nil => exact ⟨rfl, rfl⟩
  | cons f rest ih =>
    constructor
    · simp [runJob, ih.1]
    · simp only [runJob, List.map_cons, List.flatten_cons, ih.2]
      cases h : (f.invoke run).err <;> simp [reported, h]

/-- C2: in every complete run of the pool phase (a reachable state in
which main has passed `wg.Wait()`), the multiset of jobs fully executed
across all workers is a permutation of the job graph: every job was
received by exactly one worker and executed exactly once, none dropped,
duplicated or split, and the number of completed jobs equals the number of
jobs in the graph. -/
theorem pool_runs_each_job_exactly_once (n : Nat) (graph : List execData)
    (s : PoolState) (h : Reaches (initState n graph) s) (hex : s.exited = true) :
    s.executed.Perm graph ∧ s.executed.length = graph.length := by
  have inv := inv_reaches h
  obtain ⟨hcl, hall⟩ := inv.exitedAll hex
  have hpend := inv.closedEmpty hcl
  have hcur : ∀ w ∈ s.workers, w.current = none :=
    fun w hw => inv.doneIdle w hw (hall w hw)
  have hassign : s.assigned = s.executed := loadOf_all_idle hcur
  have handed := inv.handed
  rw [hpend, hassign] at handed
  simp only [Multiset.coe_nil, add_zero] at handed
  have hperm := Multiset.coe_eq_coe.1 handed
  exact ⟨hperm, hperm.length_eq⟩

theorem c2_witness :
    (PoolState.executed ⟨[], true, [⟨[⟨[buildFunc ⟨"echo", ["hi"]⟩]⟩], none, true⟩], true⟩).Perm
        [⟨[buildFunc ⟨"echo", ["hi"]⟩]⟩] :=
  (pool_runs_each_job_exactly_once 1 [⟨[buildFunc ⟨"echo", ["hi"]⟩]⟩] _
    (reaches_run_one ⟨[buildFunc ⟨"echo", ["hi"]⟩]⟩) rfl).1

/-- C3: graph construction on a decoded configuration with G groups yields
exactly G jobs in group order; the i-th job holds one closure per
descriptor of the i-th group, built by `buildFunc` from that descriptor's
`Cmd` and `Args`, in declared order. -/
theorem buildGraph_groups (f : functionsMeta) :
    (buildGraph f).length = f.Ex.length ∧
    ∀ i : Nat, ∀ g : execdataMeta, f.Ex[i]? = some g →
      (buildGraph f)[i]? = some ⟨g.Funcs.map (fun m => buildFunc ⟨m.Cmd, m.Args⟩)⟩ := by
  rw [buildGraph_eq]
  refine ⟨by simp, ?_⟩
  intro i g hg
  rw [List.getElem?_map, hg]
  rfl

theorem c3_witness :
    (buildGraph ⟨[⟨[⟨"n", "echo", ["a"]⟩]⟩]⟩).length = 1 ∧
    (buildGraph ⟨[⟨[⟨"n", "echo", ["a"]⟩]⟩]⟩)[0]?
      = some ⟨[buildFunc ⟨"echo", ["a"]⟩]⟩ := by
  have h := buildGraph_groups ⟨[⟨[⟨"n", "echo", ["a"]⟩]⟩]⟩
  exact ⟨h.1, h.2 0 ⟨[⟨"n", "echo", ["a"]⟩]⟩ rfl⟩

/-- C4: invoking the closure built by `buildFunc` from a command unit
consults the process collaborator on exactly that command; if the spawn
fails or the program exits non-zero the closure returns the error and
emits no captured output (only the `executing` trace was printed); on
success it emits the trace and then the captured buffer and returns no
error. -/
theorem buildFunc_invoke_spec (c : cli) (run : RunOracle) :
    (∀ e, run c = Except.error e →
      ((buildFunc c).invoke run).err = some e ∧
      ∀ s, Event.output s ∉ ((buildFunc c).invoke run).events) ∧
    (∀ out, run c = Except.ok out →
      ((buildFunc c).invoke run).err = none ∧
      ((buildFunc c).invoke run).events = [Event.trace c.command, Event.output out]) := by
  constructor
  · intro e he
    simp [buildFunc, execfunc.invoke, he]
  · intro out hout
    simp [buildFunc, execfunc.invoke, hout]

theorem c4_witness :
    ((buildFunc ⟨"ls", ["."]⟩).invoke (fun _ => Except.error "exit status 2")).err
        = some "exit status 2" ∧
    ((buildFunc ⟨"ls", ["."]⟩).invoke (fun _ => Except.ok "out")).events
        = [Event.trace "ls", Event.output "out"] :=
  ⟨((buildFunc_invoke_spec ⟨"ls", ["."]⟩ (fun _ => Except.error "exit status 2")).1
      "exit status 2" rfl).1,
   ((buildFunc_invoke_spec ⟨"ls", ["."]⟩ (fun _ => Except.ok "out")).2 "out" rfl).2⟩

/-- C5: an unreadable configuration file or a document that fails to
decode makes `processConfig` hit `log.Fatal` / `log.Fatalf`: main's result
is `fatal`, never `run` — the worker pool, the channel and every job
execution exist only in the `run` case, so the process dies before any
worker starts and no partial graph is ever run. -/
theorem config_error_fatal_before_pool (n : Nat) (fs : FileSystem)
    (h : (∃ e, fs "config.yaml" = Except.error e) ∨
      ∃ d e, fs "config.yaml" = Except.ok d ∧ unmarshal d = Except.error e) :
    ∃ e, mainStart n fs = MainResult.fatal e ∧
      ∀ n' g, mainStart n fs ≠ MainResult.run n' g := by
  have hfat : ∃ e, mainStart n fs = MainResult.fatal e := by
    rcases h with ⟨e, he⟩ | ⟨d, e, hd, hu⟩
    · exact ⟨e, by simp [mainStart, processConfig, readYaml, he]⟩
    · exact ⟨e, by simp [mainStart, processConfig, readYaml, hd, graphOfDoc, hu]⟩
  obtain ⟨e, he⟩ := hfat
  refine ⟨e, he, ?_⟩
  intro n' g hrun
  rw [he] at hrun
  cases hrun

theorem c5_witness :
    ∃ e, mainStart 4 (fun _ => Except.error "open config.yaml: no such file")
        = MainResult.fatal e ∧
      ∀ n' g, mainStart 4 (fun _ => Except.error "open config.yaml: no such file")
        ≠ MainResult.run n' g :=
  config_error_fatal_before_pool 4 (fun _ => Except.error "open config.yaml: no such file")
    (Or.inl ⟨"open config.yaml: no such file", rfl⟩)

/-- C6 counterexample: a configuration whose only descriptor omits `cmd`
does NOT terminate the process: yaml.v2 decodes the missing field to the
zero value "", `mainStart` enters the pool phase (so the workers of
main.go lines 156-158 are spawned), and a complete run of that pool
executes the job — refuting "the process terminates with no Jobs executed
and no Worker ever started". -/
theorem missing_cmd_runs_counterexample :
    mainStart 1
        (fun _ => Except.ok (YamlDoc.wellFormed [⟨[⟨some "echoing", none, some ["hi"]⟩]⟩]))
      = MainResult.run 1 [⟨[buildFunc ⟨"", ["hi"]⟩]⟩] ∧
    Reaches (initState 1 [⟨[buildFunc ⟨"", ["hi"]⟩]⟩])
      ⟨[], true, [⟨[⟨[buildFunc ⟨"", ["hi"]⟩]⟩], none, true⟩], true⟩ ∧
    PoolState.executed ⟨[], true, [⟨[⟨[buildFunc ⟨"", ["hi"]⟩]⟩], none, true⟩], true⟩
      = [⟨[buildFunc ⟨"", ["hi"]⟩]⟩] := by
  refine ⟨rfl, reaches_run_one ⟨[buildFunc ⟨"", ["hi"]⟩]⟩, rfl⟩

/-- C6 amended: a command descriptor that omits `cmd` decodes successfully
with the empty string as program name (yaml.v2 zero value) — it is not a
decode error — so any well-formed configuration, missing `cmd` fields
included, sends main into the pool phase with the full graph; the
resulting closure simply fails at spawn when invoked. -/
theorem missing_cmd_not_fatal (n : Nat) (fs : FileSystem) (gs : List GroupDoc)
    (h : fs "config.yaml" = Except.ok (YamlDoc.wellFormed gs)) :
    (∀ d : DescriptorDoc, d.cmd = none → (decodeDescriptor d).Cmd = "") ∧
    mainStart n fs = MainResult.run n
      (buildGraph ⟨gs.map (fun g => ⟨g.execdata.map decodeDescriptor⟩)⟩) := by
  constructor
  · intro d hd
    simp [decodeDescriptor, hd]
  · simp [mainStart, processConfig, readYaml, h, graphOfDoc, unmarshal]

theorem c6_witness :
    (decodeDescriptor ⟨some "echoing", none, some ["hi"]⟩).Cmd = "" ∧
    mainStart 1
        (fun _ => Except.ok (YamlDoc.wellFormed [⟨[⟨some "echoing", none, some ["hi"]⟩]⟩]))
      = MainResult.run 1
          (buildGraph ⟨[⟨[decodeDescriptor ⟨some "echoing", none, some ["hi"]⟩]⟩]⟩) := by
  have h := missing_cmd_not_fatal 1
    (fun _ => Except.ok (YamlDoc.wellFormed [⟨[⟨some "echoing", none, some ["hi"]⟩]⟩]))
    [⟨[⟨some "echoing", none, some ["hi"]⟩]⟩] rfl
  exact ⟨h.1 ⟨some "echoing", none, some ["hi"]⟩ rfl, h.2⟩

/-- C7: protocol facts of the pool phase, true in every reachable state:
the channel is closed only once every job has been pushed (closed implies
nothing pending); jobs are pushed in graph order (the unsent jobs are
always a suffix of the graph); a worker that has signalled done saw the
close, hence no jobs remained undispatched at that point; and main is past
`wg.Wait()` only with the channel closed and every worker done. -/
theorem dispatch_protocol (n : Nat) (graph : List execData) (s : PoolState)
    (h : Reaches (initState n graph) s) :
    (s.closed = true → s.pending = []) ∧
    s.pending.IsSuffix graph ∧
    (∀ w ∈ s.workers, w.done = true → s.closed = true ∧ s.pending = []) ∧
    (s.exited = true → s.closed = true ∧ ∀ w ∈ s.workers, w.done = true) := by
  have inv := inv_reaches h
  refine ⟨inv.closedEmpty, inv.sentInOrder, ?_, inv.exitedAll⟩
  intro w hw hdw
  have hcl := inv.doneClosed w hw hdw
  exact ⟨hcl, inv.closedEmpty hcl⟩

theorem c7_witness :
    ((initState 2 [⟨[]⟩]).closed = true → (initState 2 [⟨[]⟩]).pending = []) ∧
    (initState 2 [⟨[]⟩]).pending.IsSuffix [⟨[]⟩] ∧
    (∀ w ∈ (initState 2 [⟨[]⟩]).workers, w.done = true →
      (initState 2 [⟨[]⟩]).closed = true ∧ (initState 2 [⟨[]⟩]).pending = []) ∧
    ((initState 2 [⟨[]⟩]).exited = true →
      (initState 2 [⟨[]⟩]).closed = true ∧ ∀ w ∈ (initState 2 [⟨[]⟩]).workers, w.done = true) :=
  dispatch_protocol 2 [⟨[]⟩] (initState 2 [⟨[]⟩]) Relation.ReflTransGen.refl

/-- C8: two configurations that differ only in the display-name fields of
their descriptors (their name-erasures coincide) produce identical
`processConfig` results — the `name` field influences neither which
closures are built, nor their arguments, nor their order. -/
theorem display_name_noninterference (c₁ c₂ : String) (fs₁ fs₂ : FileSystem)
    (d₁ d₂ : YamlDoc)
    (h₁ : fs₁ "config.yaml" = Except.ok d₁) (h₂ : fs₂ "config.yaml" = Except.ok d₂)
    (hsame : stripNames d₁ = stripNames d₂) :
    processConfig c₁ fs₁ = processConfig c₂ fs₂ := by
  simp only [processConfig, readYaml, h₁, h₂]
  rw [← graphOfDoc_strip d₁, ← graphOfDoc_strip d₂, hsame]

theorem c8_witness :
    processConfig "config.yaml"
        (fun _ => Except.ok (YamlDoc.wellFormed [⟨[⟨some "a", some "echo", some ["x"]⟩]⟩]))
      = processConfig "config.yaml"
        (fun _ => Except.ok (YamlDoc.wellFormed [⟨[⟨some "b", some "echo", some ["x"]⟩]⟩])) :=
  display_name_noninterference "config.yaml" "config.yaml" _ _
    (YamlDoc.wellFormed [⟨[⟨some "a", some "echo", some ["x"]⟩]⟩])
    (YamlDoc.wellFormed [⟨[⟨some "b", some "echo", some ["x"]⟩]⟩]) rfl rfl rfl

/-- C9: `processConfig` ignores its `config` parameter entirely and reads
the hardcoded "config.yaml": its result is the same for any two argument
values and depends only on what the filesystem holds at "config.yaml". -/
theorem processConfig_reads_hardcoded_path (c₁ c₂ : String) (fs₁ fs₂ : FileSystem)
    (h : fs₁ "config.yaml" = fs₂ "config.yaml") :
    processConfig c₁ fs₁ = processConfig c₂ fs₂ := by
  simp only [processConfig, readYaml, h]

theorem c9_witness :
    processConfig "custom.yaml"
        (fun p => if p = "config.yaml" then Except.ok (YamlDoc.wellFormed [])
          else Except.error "ignored")
      = processConfig "other.yaml" (fun _ => Except.ok (YamlDoc.wellFormed [])) :=
  processConfig_reads_hardcoded_path "custom.yaml" "other.yaml" _ _ (by simp)

/-- C10: a configuration that decodes to no groups (`functions` absent or
empty) yields the empty job graph; main still enters the pool phase with
the full pool of `n` workers, sends nothing, and a normal termination is
reachable (close, all workers done, exit), while in every reachable state
of that run no command was ever started: every worker's finished list and
current slot stay empty. -/
theorem empty_config_full_pool_normal_exit (c : String) (n : Nat) (fs : FileSystem)
    (h : fs "config.yaml" = Except.ok (YamlDoc.wellFormed [])) :
    processConfig c fs = ConfigResult.ok [] ∧
    mainStart n fs = MainResult.run n [] ∧
    (initState n []).workers.length = n ∧
    (∃ s, Reaches (initState n []) s ∧ s.exited = true) ∧
    (∀ s, Reaches (initState n []) s →
      s.executed = [] ∧ ∀ w ∈ s.workers, w.finished = [] ∧ w.current = none) := by
  refine ⟨?_, ?_, by simp [initState], ⟨_, reaches_exit_empty n, rfl⟩, ?_⟩
  · simp [processConfig, readYaml, h, graphOfDoc, unmarshal, buildGraph]
  · simp [mainStart, processConfig, readYaml, h, graphOfDoc, unmarshal, buildGraph]
  · intro s hs
    have inv := inv_reaches hs
    have h1 : (s.assigned : Multiset execData) + (s.pending : Multiset execData) = 0 := by
      simpa using inv.handed
    have h2 : (s.assigned : Multiset execData) = 0 := (add_eq_zero.1 h1).1
    have hnil : loadOf s.workers = [] := (Multiset.coe_eq_zero _).1 h2
    have hw := loadOf_eq_nil hnil
    exact ⟨flatten_finished_nil (fun w hw' => (hw w hw').1), hw⟩

theorem c10_witness :
    processConfig "config.yaml" (fun _ => Except.ok (YamlDoc.wellFormed []))
        = ConfigResult.ok [] ∧
    mainStart 2 (fun _ => Except.ok (YamlDoc.wellFormed [])) = MainResult.run 2 [] :=
  ⟨(empty_config_full_pool_normal_exit "config.yaml" 2
      (fun _ => Except.ok (YamlDoc.wellFormed [])) rfl).1,
   (empty_config_full_pool_normal_exit "config.yaml" 2
      (fun _ => Except.ok (YamlDoc.wellFormed [])) rfl).2.1⟩

end Parexec
